import Mathlib

/-!
Verification of the manifest reconciliation engine of the
terraform-provider-conductor repository.

The provider manipulates JSON manifests decoded in Go as
`map[string]interface{}` values.  We embed those trees as the inductive
type `JValue`; a decoded top-level manifest is an association list of
keys to values (`Manifest`).  The Go `reflect.DeepEqual` on decoded JSON
is embedded as `deepEqual`: order-insensitive on objects (Go maps),
order-sensitive on arrays (Go slices).  The well-formedness predicate
`wfJ` records the representation invariant of Go maps (no duplicate
keys at any object level).

The CRUD resource flows of `taskdef_resource.go` and the workflow
definition resource are embedded at the decision level: the transport
collaborator is a parameter (a response value, or a server model for
the delete loop), and each flow is a pure function from the manifest
and the responses to the decision the Go code takes.
-/

set_option autoImplicit false

/-- A decoded JSON value, mirroring what `encoding/json.Unmarshal` can
place in an `interface{}`: nil, bool, float64, string,
`[]interface{}`, or `map[string]interface{}`.  Numbers are embedded as
rationals. -/
inductive JValue : Type where
  | null : JValue
  | bool (b : Bool) : JValue
  | num (q : Rat) : JValue
  | str (s : String) : JValue
  | arr (elems : List JValue) : JValue
  | obj (fields : List (String × JValue)) : JValue

/-- A decoded top-level manifest: the embedding of a Go
`map[string]interface{}`, as an association list. -/
abbrev Manifest : Type := List (String × JValue)

/-- Map indexing `m[k]`: the value of the first binding of key `k`. -/
def lookupField (k : String) : Manifest → Option JValue
  | [] => none
  | (k1, v) :: rest => if k1 = k then some v else lookupField k rest

/-- The `_, exists := m[k]` test of Go. -/
def containsKey (k : String) : Manifest → Bool
  | [] => false
  | (k1, _) :: rest => k1 == k || containsKey k rest

mutual

/-- Embedding of `reflect.DeepEqual` on decoded JSON values: objects
(Go maps) compare as finite maps, arrays compare pointwise in order,
primitives compare by type and value. -/
def deepEqual : JValue → JValue → Bool
  | .null, .null => true
  | .bool a, .bool b => decide (a = b)
  | .num a, .num b => decide (a = b)
  | .str a, .str b => decide (a = b)
  | .arr xs, .arr ys => deepEqualArr xs ys
  | .obj xs, .obj ys => decide (xs.length = ys.length) && deepEqualObj xs ys
  | _, _ => false

/-- Pointwise array comparison used by `deepEqual`. -/
def deepEqualArr : List JValue → List JValue → Bool
  | [], [] => true
  | x :: xs, y :: ys => deepEqual x y && deepEqualArr xs ys
  | _, _ => false

/-- Each binding of the first object must be present (by key) in the
second object with a `deepEqual` value. -/
def deepEqualObj : List (String × JValue) → List (String × JValue) → Bool
  | [], _ => true
  | (k, v) :: rest, ys =>
    (match lookupField k ys with
      | some w => deepEqual v w
      | none => false) && deepEqualObj rest ys

end

/-- No two bindings of the association list share a key (the
representation invariant of a Go map). -/
def nodupKeys : Manifest → Bool
  | [] => true
  | (k, _) :: rest => !containsKey k rest && nodupKeys rest

mutual

/-- Well-formed decoded JSON value: every object level has no
duplicate keys.  Values produced by `json.Unmarshal` always satisfy
this. -/
def wfJ : JValue → Bool
  | .arr xs => wfArr xs
  | .obj xs => nodupKeys xs && wfFields xs
  | _ => true

/-- All elements of an array are well-formed. -/
def wfArr : List JValue → Bool
  | [] => true
  | x :: xs => wfJ x && wfArr xs

/-- All values of an object are well-formed. -/
def wfFields : List (String × JValue) → Bool
  | [] => true
  | (_, v) :: rest => wfJ v && wfFields rest

end

/-- Well-formed top-level manifest. -/
def wfManifest (m : Manifest) : Bool :=
  nodupKeys m && wfFields m

theorem containsKey_of_mem {k : String} {v : JValue} {m : Manifest}
    (h : (k, v) ∈ m) : containsKey k m = true := by
  induction m with
  | nil => cases h
  | cons p rest ih =>
    obtain ⟨k1, v1⟩ := p
    rcases List.mem_cons.mp h with h1 | h2
    · rw [Prod.mk.injEq] at h1
      simp [containsKey, h1.1]
    · simp [containsKey, ih h2]

theorem lookupField_of_nodup_mem {k : String} {v : JValue} {m : Manifest}
    (hnd : nodupKeys m = true) (h : (k, v) ∈ m) : lookupField k m = some v := by
  induction m with
  | nil => cases h
  | cons p rest ih =>
    obtain ⟨k1, v1⟩ := p
    simp only [nodupKeys, Bool.and_eq_true, Bool.not_eq_true'] at hnd
    rcases List.mem_cons.mp h with h1 | h2
    · rw [Prod.mk.injEq] at h1
      simp [lookupField, h1.1, h1.2]
    · have hk : k1 ≠ k := by
        intro he
        rw [he] at hnd
        rw [containsKey_of_mem h2] at hnd
        exact absurd hnd.1 (by simp)
      simp [lookupField, hk, ih hnd.2 h2]

theorem mem_of_lookupField {k : String} {v : JValue} {m : Manifest}
    (h : lookupField k m = some v) : (k, v) ∈ m := by
  induction m with
  | nil => simp [lookupField] at h
  | cons p rest ih =>
    obtain ⟨k1, v1⟩ := p
    by_cases he : k1 = k
    · rw [lookupField, if_pos he] at h
      cases h
      rw [he]
      exact List.mem_cons_self _ _
    · rw [lookupField, if_neg he] at h
      exact List.mem_cons_of_mem _ (ih h)

mutual

theorem deepEqual_refl : ∀ v : JValue, wfJ v = true → deepEqual v v = true
  | .null, _ => rfl
  | .bool b, _ => by simp [deepEqual]
  | .num q, _ => by simp [deepEqual]
  | .str s, _ => by simp [deepEqual]
  | .arr xs, h => by
    simp only [deepEqual]
    exact deepEqualArr_refl xs (by simpa [wfJ] using h)
  | .obj xs, h => by
    simp only [deepEqual, Bool.and_eq_true, decide_eq_true_eq]
    have h1 : nodupKeys xs = true ∧ wfFields xs = true := by
      simpa [wfJ, Bool.and_eq_true] using h
    refine ⟨by simp, deepEqualObj_refl xs xs h1.2 ?_⟩
    intro k v hm
    exact lookupField_of_nodup_mem h1.1 hm

theorem deepEqualArr_refl : ∀ xs : List JValue, wfArr xs = true →
    deepEqualArr xs xs = true
  | [], _ => rfl
  | x :: xs, h => by
    simp only [wfArr, Bool.and_eq_true] at h
    simp only [deepEqualArr, Bool.and_eq_true]
    exact ⟨deepEqual_refl x h.1, deepEqualArr_refl xs h.2⟩

theorem deepEqualObj_refl : ∀ (xs ys : List (String × JValue)), wfFields xs = true →
    (∀ k v, (k, v) ∈ xs → lookupField k ys = some v) → deepEqualObj xs ys = true
  | [], _, _, _ => rfl
  | (k, v) :: rest, ys, h, hl => by
    simp only [wfFields, Bool.and_eq_true] at h
    simp only [deepEqualObj, Bool.and_eq_true]
    constructor
    · rw [hl k v (List.mem_cons_self _ _)]
      exact deepEqual_refl v h.1
    · exact deepEqualObj_refl rest ys h.2 (fun k1 v1 hm => hl k1 v1 (List.mem_cons_of_mem _ hm))

end

/-!
Embedding of `manifest_state_cleanup_merge.go`.
-/

/-- `isPrimitiveValue`: a bool, float64 or string. -/
def isPrimitiveValue : JValue → Bool
  | .bool _ => true
  | .num _ => true
  | .str _ => true
  | _ => false

/-- `getPrimitiveDefaultValue`: the default table entry for the key
when present, otherwise the zero value of the own type of the value.  The
Go function returns the untyped `nil` interface (embedded as `.null`)
when the value is not a primitive (unreachable from its caller). -/
def getPrimitiveDefaultValue (key : String) (value : JValue)
    (defaultValues : Manifest) : JValue :=
  match lookupField key defaultValues with
  | some defValue => defValue
  | none =>
    match value with
    | .bool _ => .bool false
    | .num _ => .num 0
    | .str _ => .str ""
    | _ => .null

/-- The per-key loop body of `cleanupManifestDefaults`: `true` when
the iteration deletes the key.  A nil value is deleted; a primitive is
deleted when it deep-equals its resolved default (kept when the
resolved default is the nil interface); a map or slice is deleted when
empty; any other shape is kept (the Go code only logs it). -/
def cleanupDeletesKey (key : String) (value : JValue)
    (defaultValues : Manifest) : Bool :=
  match value with
  | .null => true
  | .obj mapVal => mapVal.isEmpty
  | .arr sliceVal => sliceVal.isEmpty
  | _ =>
    match getPrimitiveDefaultValue key value defaultValues with
    | .null => false
    | defaultValue => deepEqual value defaultValue

/-- `cleanupManifestDefaults`: delete from the manifest every key the
loop body decides to delete (the Go loop deletes only the key under
iteration, so the pass is a filter over the entries). -/
def cleanupManifestDefaults (manifestMap : Manifest)
    (defaultValues : Manifest) : Manifest :=
  manifestMap.filter (fun p => !cleanupDeletesKey p.1 p.2 defaultValues)

/-- Go `delete(m, k)` on the association-list embedding: drop every
binding of the key. -/
def deleteKey : Manifest → String → Manifest
  | [], _ => []
  | (k1, v) :: rest, k =>
    if k1 = k then deleteKey rest k else (k1, v) :: deleteKey rest k

/-- Go map assignment `m[k] = v` on the association-list embedding.
Go maps carry no entry order, so any list with the right per-key
content embeds the updated map; we drop the old bindings of `k` and
append the new one. -/
def setKey (m : Manifest) (k : String) (v : JValue) : Manifest :=
  deleteKey m k ++ [(k, v)]

/-- `mergeManifestMaps`: for every key of `fromMap`, copy its value
into `toMap` when the key is absent there or the value is primitive;
leave present non-primitive keys untouched. -/
def mergeManifestMaps (fromMap : Manifest) (toMap : Manifest) : Manifest :=
  fromMap.foldl
    (fun acc p =>
      if !containsKey p.1 acc || isPrimitiveValue p.2 then setKey acc p.1 p.2
      else acc)
    toMap

/-!
Embedding of the workflow definition cleanup pass and its default
tables (from the workflow definition resource source file), and of the
task definition default table (`taskdef_resource.go`).
-/

/-- `auditableFieldsToIgnore`: server-owned fields stripped before
compare and write. -/
def auditableFieldsToIgnore : List String :=
  ["createTime", "updateTime", "createdBy", "updatedBy"]

/-- The `for _, f := range auditableFieldsToIgnore { delete(m, f) }`
loop. -/
def removeAuditableFields (m : Manifest) : Manifest :=
  auditableFieldsToIgnore.foldl deleteKey m

/-- `defaultTaskDefValues`. -/
def defaultTaskDefValues : Manifest :=
  [("backoffScaleFactor", .num 1),
   ("rateLimitFrequencyInSeconds", .num 1),
   ("responseTimeoutSeconds", .num 3600),
   ("retryCount", .num 3),
   ("retryDelaySeconds", .num 60),
   ("retryLogic", .str "FIXED"),
   ("timeoutPolicy", .str "TIME_OUT_WF")]

/-- `defaultWorkflowDefValues`. -/
def defaultWorkflowDefValues : Manifest :=
  [("schemaVersion", .num 2),
   ("timeoutPolicy", .str "ALERT_ONLY"),
   ("enforceSchema", .bool true),
   ("restartable", .bool true)]

/-- `defaultWorkflowDefTaskValues`. -/
def defaultWorkflowDefTaskValues : Manifest :=
  [("type", .str "SIMPLE")]

/-- The per-element body of the task loop of `workflowDefCleanup`: a
task that is a map is cleaned against the task default table, any
other element is left untouched (the Go code only logs it). -/
def cleanupWorkflowTask : JValue → JValue
  | .obj fields => .obj (cleanupManifestDefaults fields defaultWorkflowDefTaskValues)
  | other => other

/-- `workflowDefCleanup`: strip the auditable fields, elide the
document-level defaults and then elide the task-level defaults inside
every map element of the `tasks` slice (when that key holds a
slice). -/
def workflowDefCleanup (currentManifestMap : Manifest) : Manifest :=
  let m1 := removeAuditableFields currentManifestMap
  let m2 := cleanupManifestDefaults m1 defaultWorkflowDefValues
  match lookupField "tasks" m2 with
  | some (.arr currentTasksArr) =>
    setKey m2 "tasks" (.arr (currentTasksArr.map cleanupWorkflowTask))
  | _ => m2

/-- `taskDefCleanupAndMerge` uses `cleanupManifestDefaults` with
`defaultTaskDefValues` on the current manifest and then merges; the
plan-equality oracle of `TaskDefResource.ModifyPlan` runs the same
cleanup on both sides and compares with `reflect.DeepEqual`. -/
def taskDefModifyPlanIsNoOp (planDef stateDef : Manifest) : Bool :=
  deepEqual (.obj (cleanupManifestDefaults planDef defaultTaskDefValues))
    (.obj (cleanupManifestDefaults stateDef defaultTaskDefValues))

/-- The plan-equality oracle of `WorkflowDefResource.ModifyPlan`:
`workflowDefCleanup` on both sides, then `reflect.DeepEqual`. -/
def workflowDefModifyPlanIsNoOp (planDef stateDef : Manifest) : Bool :=
  deepEqual (.obj (workflowDefCleanup planDef))
    (.obj (workflowDefCleanup stateDef))

/-!
Elision lemmas.
-/

theorem cleanup_mem_keep {m defaults : Manifest} {p : String × JValue}
    (h : p ∈ cleanupManifestDefaults m defaults) :
    cleanupDeletesKey p.1 p.2 defaults = false := by
  have := List.of_mem_filter h
  simpa using this

theorem cleanup_eq_self {m defaults : Manifest}
    (h : ∀ p ∈ m, cleanupDeletesKey p.1 p.2 defaults = false) :
    cleanupManifestDefaults m defaults = m := by
  apply List.filter_eq_self.mpr
  intro p hp
  simp [h p hp]

theorem cleanupManifestDefaults_idem (m defaults : Manifest) :
    cleanupManifestDefaults (cleanupManifestDefaults m defaults) defaults =
      cleanupManifestDefaults m defaults :=
  cleanup_eq_self (fun _ hp => cleanup_mem_keep hp)

theorem mem_cleanup_iff {m defaults : Manifest} {p : String × JValue} :
    p ∈ cleanupManifestDefaults m defaults ↔
      p ∈ m ∧ cleanupDeletesKey p.1 p.2 defaults = false := by
  unfold cleanupManifestDefaults
  rw [List.mem_filter]
  simp

/-- The elision rule for one key, stated the way the specification
states it: null deletes; a primitive deletes exactly when it
deep-equals the table default for the key, or the zero value of its
own type when the table has no entry; a mapping or sequence deletes
exactly when empty. -/
def specElisionDeletes (key : String) (value : JValue)
    (defaults : Manifest) : Bool :=
  match value with
  | .null => true
  | .obj fields => fields.isEmpty
  | .arr elems => elems.isEmpty
  | .bool _ | .num _ | .str _ =>
    let resolved :=
      match lookupField key defaults with
      | some d => d
      | none =>
        match value with
        | .bool _ => .bool false
        | .num _ => .num 0
        | .str _ => .str ""
        | _ => .null
    deepEqual value resolved

theorem cleanupDeletesKey_eq_spec (key : String) (value : JValue)
    (defaults : Manifest) :
    cleanupDeletesKey key value defaults = specElisionDeletes key value defaults := by
  cases value with
  | null => rfl
  | obj fields => rfl
  | arr elems => rfl
  | bool b =>
    simp only [cleanupDeletesKey, specElisionDeletes, getPrimitiveDefaultValue]
    cases h : lookupField key defaults with
    | none => simp [deepEqual]
    | some d => cases d <;> simp [deepEqual]
  | num q =>
    simp only [cleanupDeletesKey, specElisionDeletes, getPrimitiveDefaultValue]
    cases h : lookupField key defaults with
    | none => simp [deepEqual]
    | some d => cases d <;> simp [deepEqual]
  | str s =>
    simp only [cleanupDeletesKey, specElisionDeletes, getPrimitiveDefaultValue]
    cases h : lookupField key defaults with
    | none => simp [deepEqual]
    | some d => cases d <;> simp [deepEqual]

/-- Claim C6: for every manifest and default table, the elision pass
processes each top-level key as the specification describes: a null
value deletes the key; a primitive value deletes the key iff it
deep-equals the table default for that key (the zero value of its
own type when the table has no entry); a mapping or sequence deletes
the key iff it is empty.  Membership of the entry in the elided
manifest is the negation of that deletion rule. -/
theorem cleanupManifestDefaults_key_behavior (m defaults : Manifest)
    (k : String) (v : JValue) (hmem : (k, v) ∈ m) :
    ((k, v) ∈ cleanupManifestDefaults m defaults ↔
      specElisionDeletes k v defaults = false) := by
  rw [mem_cleanup_iff]
  rw [show cleanupDeletesKey k v defaults = specElisionDeletes k v defaults from
    cleanupDeletesKey_eq_spec k v defaults]
  simp [hmem]

theorem cleanupManifestDefaults_key_behavior_witness :
    (("name", JValue.str "t1") ∈
      cleanupManifestDefaults
        [(("name" : String), JValue.str "t1"), ("retryCount", JValue.num 3)]
        defaultTaskDefValues) :=
  (cleanupManifestDefaults_key_behavior
    [(("name" : String), JValue.str "t1"), ("retryCount", JValue.num 3)]
    defaultTaskDefValues "name" (JValue.str "t1")
    (List.mem_cons_self _ _)).mpr rfl

/-- Claim C8: elision is idempotent: applying the elision pass twice
with the same default table yields the same manifest as applying it
once. -/
theorem elide_idempotent (tree defaults : Manifest) :
    cleanupManifestDefaults (cleanupManifestDefaults tree defaults) defaults =
      cleanupManifestDefaults tree defaults :=
  cleanupManifestDefaults_idem tree defaults

/-!
Map-update lemmas.
-/

theorem lookupField_append (xs ys : Manifest) (k : String) :
    lookupField k (xs ++ ys) =
      (match lookupField k xs with
        | some v => some v
        | none => lookupField k ys) := by
  induction xs with
  | nil => simp [lookupField]
  | cons p rest ih =>
    obtain ⟨k1, v1⟩ := p
    by_cases he : k1 = k
    · simp [lookupField, he]
    · simp [lookupField, he, ih]

theorem containsKey_append (xs ys : Manifest) (k : String) :
    containsKey k (xs ++ ys) = (containsKey k xs || containsKey k ys) := by
  induction xs with
  | nil => simp [containsKey]
  | cons p rest ih =>
    obtain ⟨k1, v1⟩ := p
    simp [containsKey, ih, Bool.or_assoc]

theorem lookupField_deleteKey_self (m : Manifest) (k : String) :
    lookupField k (deleteKey m k) = none := by
  induction m with
  | nil => rfl
  | cons p rest ih =>
    obtain ⟨k1, v1⟩ := p
    by_cases he : k1 = k
    · simpa [deleteKey, he] using ih
    · simpa [deleteKey, he, lookupField] using ih

theorem lookupField_deleteKey_ne (m : Manifest) (k k1 : String) (hne : k1 ≠ k) :
    lookupField k1 (deleteKey m k) = lookupField k1 m := by
  induction m with
  | nil => rfl
  | cons p rest ih =>
    obtain ⟨k2, v2⟩ := p
    by_cases he : k2 = k
    · rw [deleteKey, if_pos he, ih, lookupField,
        if_neg (by rw [he]; exact Ne.symm hne)]
    · rw [deleteKey, if_neg he]
      by_cases he1 : k2 = k1
      · rw [lookupField, if_pos he1, lookupField, if_pos he1]
      · rw [lookupField, if_neg he1, lookupField, if_neg he1, ih]

theorem containsKey_deleteKey_ne (m : Manifest) (k k1 : String) (hne : k1 ≠ k) :
    containsKey k1 (deleteKey m k) = containsKey k1 m := by
  induction m with
  | nil => rfl
  | cons p rest ih =>
    obtain ⟨k2, v2⟩ := p
    by_cases he : k2 = k
    · rw [deleteKey, if_pos he, ih, containsKey]
      have h2 : (k2 == k1) = false := by
        rw [he]
        exact beq_eq_false_iff_ne.mpr (Ne.symm hne)
      rw [h2, Bool.false_or]
    · rw [deleteKey, if_neg he, containsKey, containsKey, ih]

theorem containsKey_deleteKey_self (m : Manifest) (k : String) :
    containsKey k (deleteKey m k) = false := by
  induction m with
  | nil => rfl
  | cons p rest ih =>
    obtain ⟨k1, v1⟩ := p
    by_cases he : k1 = k
    · simpa [deleteKey, he] using ih
    · simpa [deleteKey, he, containsKey] using ih

theorem mem_deleteKey {m : Manifest} {k : String} {p : String × JValue}
    (h : p ∈ deleteKey m k) : p ∈ m ∧ p.1 ≠ k := by
  induction m with
  | nil => cases h
  | cons q rest ih =>
    obtain ⟨k1, v1⟩ := q
    by_cases he : k1 = k
    · rw [deleteKey, if_pos he] at h
      exact ⟨List.mem_cons_of_mem _ (ih h).1, (ih h).2⟩
    · rw [deleteKey, if_neg he] at h
      rcases List.mem_cons.mp h with h1 | h1
      · refine ⟨List.mem_cons.mpr (Or.inl h1), ?_⟩
        rw [h1]
        exact he
      · exact ⟨List.mem_cons_of_mem _ (ih h1).1, (ih h1).2⟩

theorem lookupField_setKey_self (m : Manifest) (k : String) (v : JValue) :
    lookupField k (setKey m k v) = some v := by
  unfold setKey
  rw [lookupField_append, lookupField_deleteKey_self]
  simp [lookupField]

theorem lookupField_setKey_ne (m : Manifest) (k k1 : String) (v : JValue)
    (hne : k1 ≠ k) : lookupField k1 (setKey m k v) = lookupField k1 m := by
  unfold setKey
  rw [lookupField_append, lookupField_deleteKey_ne m k k1 hne]
  cases h : lookupField k1 m with
  | some w => rfl
  | none => simp [lookupField, Ne.symm hne]

theorem containsKey_setKey_ne (m : Manifest) (k k1 : String) (v : JValue)
    (hne : k1 ≠ k) : containsKey k1 (setKey m k v) = containsKey k1 m := by
  unfold setKey
  rw [containsKey_append, containsKey_deleteKey_ne m k k1 hne]
  simp [containsKey, Ne.symm hne]

theorem mem_setKey {m : Manifest} {k : String} {v : JValue} {p : String × JValue}
    (h : p ∈ setKey m k v) : p = (k, v) ∨ p ∈ m := by
  unfold setKey at h
  rcases List.mem_append.mp h with h1 | h1
  · exact Or.inr (mem_deleteKey h1).1
  · exact Or.inl (List.mem_singleton.mp h1)

theorem deleteKey_deleteKey (m : Manifest) (k : String) :
    deleteKey (deleteKey m k) k = deleteKey m k := by
  induction m with
  | nil => rfl
  | cons p rest ih =>
    obtain ⟨k1, v1⟩ := p
    by_cases he : k1 = k
    · rw [deleteKey, if_pos he, ih]
    · rw [deleteKey, if_neg he, deleteKey, if_neg he, ih]

theorem deleteKey_append (xs ys : Manifest) (k : String) :
    deleteKey (xs ++ ys) k = deleteKey xs k ++ deleteKey ys k := by
  induction xs with
  | nil => rfl
  | cons p rest ih =>
    obtain ⟨k1, v1⟩ := p
    by_cases he : k1 = k
    · rw [List.cons_append, deleteKey, if_pos he, deleteKey, if_pos he, ih]
    · rw [List.cons_append, deleteKey, if_neg he, deleteKey, if_neg he, ih,
        List.cons_append]

theorem setKey_setKey (m : Manifest) (k : String) (v w : JValue) :
    setKey (setKey m k v) k w = setKey m k w := by
  unfold setKey
  rw [deleteKey_append, deleteKey_deleteKey]
  have h1 : deleteKey [(k, v)] k = [] := by simp [deleteKey]
  rw [h1, List.append_nil]

/-!
Merge lemmas.
-/

theorem merge_lookup_of_not_contains (fromMap : Manifest) :
    ∀ (toMap : Manifest) (k : String), containsKey k fromMap = false →
      lookupField k (mergeManifestMaps fromMap toMap) = lookupField k toMap := by
  induction fromMap with
  | nil => intro toMap k _; rfl
  | cons p rest ih =>
    intro toMap k hc
    obtain ⟨k1, v1⟩ := p
    simp only [containsKey, Bool.or_eq_false_iff, beq_eq_false_iff_ne] at hc
    have hstep : mergeManifestMaps ((k1, v1) :: rest) toMap =
        mergeManifestMaps rest
          (if !containsKey k1 toMap || isPrimitiveValue v1 then setKey toMap k1 v1
           else toMap) := by
      rfl
    rw [hstep, ih _ k hc.2]
    by_cases hcond : (!containsKey k1 toMap || isPrimitiveValue v1) = true
    · rw [if_pos hcond]
      exact lookupField_setKey_ne toMap k1 k v1 (fun h => hc.1 h.symm)
    · rw [if_neg hcond]

theorem merge_lookup_of_mem (fromMap : Manifest) :
    ∀ (toMap : Manifest) (k : String) (v : JValue),
      nodupKeys fromMap = true → (k, v) ∈ fromMap →
      lookupField k (mergeManifestMaps fromMap toMap) =
        (if !containsKey k toMap || isPrimitiveValue v then some v
         else lookupField k toMap) := by
  induction fromMap with
  | nil => intro _ _ _ _ h; cases h
  | cons p rest ih =>
    intro toMap k v hnd hmem
    obtain ⟨k1, v1⟩ := p
    simp only [nodupKeys, Bool.and_eq_true, Bool.not_eq_true'] at hnd
    have hstep : mergeManifestMaps ((k1, v1) :: rest) toMap =
        mergeManifestMaps rest
          (if !containsKey k1 toMap || isPrimitiveValue v1 then setKey toMap k1 v1
           else toMap) := by
      rfl
    rcases List.mem_cons.mp hmem with h1 | h2
    · rw [Prod.mk.injEq] at h1
      obtain ⟨hk, hv⟩ := h1
      subst hk
      subst hv
      rw [hstep, merge_lookup_of_not_contains rest _ k hnd.1]
      by_cases hcond : (!containsKey k toMap || isPrimitiveValue v) = true
      · rw [if_pos hcond, if_pos hcond]
        exact lookupField_setKey_self toMap k v
      · rw [if_neg hcond, if_neg hcond]
    · have hk1 : k1 ≠ k := by
        intro he
        rw [he] at hnd
        rw [containsKey_of_mem h2] at hnd
        cases hnd.1
      rw [hstep]
      by_cases hcond : (!containsKey k1 toMap || isPrimitiveValue v1) = true
      · rw [if_pos hcond, ih _ k v hnd.2 h2]
        rw [containsKey_setKey_ne toMap k1 k v1 (fun h => hk1 h.symm)]
        rw [lookupField_setKey_ne toMap k1 k v1 (fun h => hk1 h.symm)]
      · rw [if_neg hcond]
        exact ih _ k v hnd.2 h2

/-- Claim C7: for every pair of manifest maps and every key of
`fromMap` (unique keys, as in a Go map): when the key is absent in
`toMap` or its `fromMap` value is primitive, the merged map holds the
`fromMap` value at the key; when the key is present in `toMap` and the
`fromMap` value is non-primitive, the merged map holds the original
`toMap` value at the key, so any non-empty mapping or sequence
already in `toMap` is preserved. -/
theorem mergeManifestMaps_semantics (fromMap toMap : Manifest)
    (k : String) (v : JValue)
    (hnd : nodupKeys fromMap = true) (hmem : (k, v) ∈ fromMap) :
    ((containsKey k toMap = false ∨ isPrimitiveValue v = true →
        lookupField k (mergeManifestMaps fromMap toMap) = some v) ∧
      (containsKey k toMap = true → isPrimitiveValue v = false →
        lookupField k (mergeManifestMaps fromMap toMap) = lookupField k toMap)) := by
  constructor
  · intro hcase
    rw [merge_lookup_of_mem fromMap toMap k v hnd hmem]
    have h : (!containsKey k toMap || isPrimitiveValue v) = true := by
      rcases hcase with h | h <;> simp [h]
    rw [if_pos h]
  · intro hc hp
    rw [merge_lookup_of_mem fromMap toMap k v hnd hmem]
    have h : (!containsKey k toMap || isPrimitiveValue v) = false := by
      simp [hc, hp]
    rw [if_neg (by simp [h])]

theorem mergeManifestMaps_semantics_witness :
    lookupField "retryCount"
        (mergeManifestMaps
          [(("retryCount" : String), JValue.num 3), ("tasks", JValue.arr [JValue.num 1])]
          [(("retryCount" : String), JValue.num 7),
           ("tasks", JValue.arr [JValue.num 2, JValue.num 3])]) =
      some (JValue.num 3) ∧
    lookupField "tasks"
        (mergeManifestMaps
          [(("retryCount" : String), JValue.num 3), ("tasks", JValue.arr [JValue.num 1])]
          [(("retryCount" : String), JValue.num 7),
           ("tasks", JValue.arr [JValue.num 2, JValue.num 3])]) =
      some (JValue.arr [JValue.num 2, JValue.num 3]) := by
  constructor
  · exact (mergeManifestMaps_semantics
      [(("retryCount" : String), JValue.num 3), ("tasks", JValue.arr [JValue.num 1])]
      [(("retryCount" : String), JValue.num 7),
       ("tasks", JValue.arr [JValue.num 2, JValue.num 3])]
      "retryCount" (JValue.num 3) rfl (List.mem_cons_self _ _)).1 (Or.inr rfl)
  · have h := (mergeManifestMaps_semantics
      [(("retryCount" : String), JValue.num 3), ("tasks", JValue.arr [JValue.num 1])]
      [(("retryCount" : String), JValue.num 7),
       ("tasks", JValue.arr [JValue.num 2, JValue.num 3])]
      "tasks" (JValue.arr [JValue.num 1])
      rfl (List.mem_cons_of_mem _ (List.mem_cons_self _ _))).2 rfl rfl
    rw [h]
    rfl

/-!
Well-formedness preservation.
-/

theorem wfFields_iff {m : Manifest} :
    wfFields m = true ↔ ∀ p ∈ m, wfJ p.2 = true := by
  induction m with
  | nil => simp [wfFields]
  | cons p rest ih =>
    obtain ⟨k1, v1⟩ := p
    simp only [wfFields, Bool.and_eq_true, ih, List.mem_cons]
    constructor
    · rintro ⟨h1, h2⟩ q (hq | hq)
      · rw [hq]; exact h1
      · exact h2 q hq
    · intro h
      exact ⟨h (k1, v1) (Or.inl rfl), fun q hq => h q (Or.inr hq)⟩

theorem containsKey_filter {m : Manifest} {pr : String × JValue → Bool} {k : String}
    (h : containsKey k (m.filter pr) = true) : containsKey k m = true := by
  induction m with
  | nil => simp [containsKey] at h
  | cons q rest ih =>
    obtain ⟨k1, v1⟩ := q
    by_cases hp : pr (k1, v1) = true
    · rw [List.filter_cons, if_pos hp, containsKey, Bool.or_eq_true] at h
      rw [containsKey, Bool.or_eq_true]
      rcases h with h | h
      · exact Or.inl h
      · exact Or.inr (ih h)
    · rw [List.filter_cons, if_neg hp] at h
      rw [containsKey, Bool.or_eq_true]
      exact Or.inr (ih h)

theorem nodupKeys_filter {m : Manifest} {pr : String × JValue → Bool}
    (h : nodupKeys m = true) : nodupKeys (m.filter pr) = true := by
  induction m with
  | nil => simp [nodupKeys]
  | cons q rest ih =>
    obtain ⟨k1, v1⟩ := q
    simp only [nodupKeys, Bool.and_eq_true, Bool.not_eq_true'] at h
    by_cases hp : pr (k1, v1) = true
    · rw [List.filter_cons, if_pos hp]
      simp only [nodupKeys, Bool.and_eq_true, Bool.not_eq_true']
      constructor
      · by_cases hck : containsKey k1 (List.filter pr rest) = true
        · rw [containsKey_filter hck] at h
          cases h.1
        · simpa using hck
      · exact ih h.2
    · rw [List.filter_cons, if_neg hp]
      exact ih h.2

theorem wfFields_filter {m : Manifest} {pr : String × JValue → Bool}
    (h : wfFields m = true) : wfFields (m.filter pr) = true := by
  rw [wfFields_iff]
  intro p hp
  exact wfFields_iff.mp h p (List.mem_filter.mp hp).1

theorem wfManifest_cleanup {m : Manifest} (defaults : Manifest)
    (h : wfManifest m = true) : wfManifest (cleanupManifestDefaults m defaults) = true := by
  unfold wfManifest at h ⊢
  rw [Bool.and_eq_true] at h ⊢
  exact ⟨nodupKeys_filter h.1, wfFields_filter h.2⟩

theorem nodupKeys_deleteKey {m : Manifest} {k : String}
    (h : nodupKeys m = true) : nodupKeys (deleteKey m k) = true := by
  induction m with
  | nil => exact h
  | cons q rest ih =>
    obtain ⟨k1, v1⟩ := q
    simp only [nodupKeys, Bool.and_eq_true, Bool.not_eq_true'] at h
    by_cases he : k1 = k
    · rw [deleteKey, if_pos he]
      exact ih h.2
    · rw [deleteKey, if_neg he]
      simp only [nodupKeys, Bool.and_eq_true, Bool.not_eq_true']
      refine ⟨?_, ih h.2⟩
      rw [containsKey_deleteKey_ne rest k k1 he]
      exact h.1

theorem wfFields_deleteKey {m : Manifest} {k : String}
    (h : wfFields m = true) : wfFields (deleteKey m k) = true := by
  rw [wfFields_iff]
  intro p hp
  exact wfFields_iff.mp h p (mem_deleteKey hp).1

theorem wfManifest_deleteKey {m : Manifest} {k : String}
    (h : wfManifest m = true) : wfManifest (deleteKey m k) = true := by
  unfold wfManifest at h ⊢
  rw [Bool.and_eq_true] at h ⊢
  exact ⟨nodupKeys_deleteKey h.1, wfFields_deleteKey h.2⟩

theorem nodupKeys_append_single {m : Manifest} {k : String} {v : JValue}
    (hnd : nodupKeys m = true) (hck : containsKey k m = false) :
    nodupKeys (m ++ [(k, v)]) = true := by
  induction m with
  | nil => simp [nodupKeys, containsKey]
  | cons q rest ih =>
    obtain ⟨k1, v1⟩ := q
    simp only [nodupKeys, Bool.and_eq_true, Bool.not_eq_true'] at hnd
    simp only [containsKey, Bool.or_eq_false_iff] at hck
    rw [List.cons_append]
    simp only [nodupKeys, Bool.and_eq_true, Bool.not_eq_true']
    constructor
    · rw [containsKey_append, hnd.1, containsKey]
      have hkk : (k == k1) = false := by
        have h1 : k1 ≠ k := by
          intro he
          rw [he] at hck
          simp at hck
        exact beq_eq_false_iff_ne.mpr (Ne.symm h1)
      simp [hkk, containsKey]
    · exact ih hnd.2 hck.2

theorem wfManifest_setKey {m : Manifest} {k : String} {v : JValue}
    (h : wfManifest m = true) (hv : wfJ v = true) :
    wfManifest (setKey m k v) = true := by
  unfold wfManifest at h ⊢
  rw [Bool.and_eq_true] at h ⊢
  unfold setKey
  constructor
  · exact nodupKeys_append_single (nodupKeys_deleteKey h.1) (containsKey_deleteKey_self m k)
  · rw [wfFields_iff]
    intro p hp
    rcases List.mem_append.mp hp with h1 | h1
    · exact wfFields_iff.mp (wfFields_deleteKey h.2) p h1
    · rw [List.mem_singleton.mp h1]
      exact hv

theorem wfManifest_removeAuditable {m : Manifest}
    (h : wfManifest m = true) : wfManifest (removeAuditableFields m) = true := by
  unfold removeAuditableFields auditableFieldsToIgnore
  exact wfManifest_deleteKey (wfManifest_deleteKey (wfManifest_deleteKey
    (wfManifest_deleteKey h)))

theorem wfJ_cleanupWorkflowTask {t : JValue} (h : wfJ t = true) :
    wfJ (cleanupWorkflowTask t) = true := by
  cases t with
  | obj fields =>
    unfold cleanupWorkflowTask
    have h1 : wfManifest fields = true := by
      unfold wfManifest
      simpa [wfJ] using h
    have h2 := wfManifest_cleanup defaultWorkflowDefTaskValues h1
    unfold wfManifest at h2
    simpa [wfJ] using h2
  | null => exact h
  | bool b => exact h
  | num q => exact h
  | str s => exact h
  | arr xs => exact h

theorem wfArr_map_cleanupWorkflowTask {ts : List JValue} (h : wfArr ts = true) :
    wfArr (ts.map cleanupWorkflowTask) = true := by
  induction ts with
  | nil => exact h
  | cons t rest ih =>
    simp only [wfArr, Bool.and_eq_true] at h
    simp only [List.map_cons, wfArr, Bool.and_eq_true]
    exact ⟨wfJ_cleanupWorkflowTask h.1, ih h.2⟩

theorem workflowDefCleanup_def (m : Manifest) :
    workflowDefCleanup m =
      (match lookupField "tasks"
          (cleanupManifestDefaults (removeAuditableFields m) defaultWorkflowDefValues) with
        | some (.arr ts) =>
          setKey (cleanupManifestDefaults (removeAuditableFields m) defaultWorkflowDefValues)
            "tasks" (.arr (ts.map cleanupWorkflowTask))
        | _ =>
          cleanupManifestDefaults (removeAuditableFields m) defaultWorkflowDefValues) :=
  rfl

theorem wfManifest_workflowDefCleanup {m : Manifest}
    (h : wfManifest m = true) : wfManifest (workflowDefCleanup m) = true := by
  rw [workflowDefCleanup_def]
  have h2 : wfManifest (cleanupManifestDefaults (removeAuditableFields m)
      defaultWorkflowDefValues) = true :=
    wfManifest_cleanup _ (wfManifest_removeAuditable h)
  split
  · rename_i ts heq
    apply wfManifest_setKey h2
    have hmem := mem_of_lookupField heq
    have harr : wfJ (JValue.arr ts) = true :=
      wfFields_iff.mp (by unfold wfManifest at h2; simpa using
        (Bool.and_eq_true _ _).mp h2 |>.2) _ hmem
    rw [wfJ] at harr ⊢
    exact wfArr_map_cleanupWorkflowTask harr
  · exact h2

/-!
Idempotence of the workflow cleanup pass.
-/

theorem deleteKey_eq_self {m : Manifest} {k : String}
    (h : containsKey k m = false) : deleteKey m k = m := by
  induction m with
  | nil => rfl
  | cons p rest ih =>
    obtain ⟨k1, v1⟩ := p
    simp only [containsKey, Bool.or_eq_false_iff, beq_eq_false_iff_ne] at h
    rw [deleteKey, if_neg h.1, ih h.2]

theorem containsKey_deleteKey_false {m : Manifest} {f g : String}
    (h : containsKey f m = false) : containsKey f (deleteKey m g) = false := by
  by_cases he : f = g
  · rw [he]
    exact containsKey_deleteKey_self m g
  · rw [containsKey_deleteKey_ne m g f he]
    exact h

theorem foldl_deleteKey_false (fs : List String) :
    ∀ (m : Manifest) (f : String), containsKey f m = false →
      containsKey f (fs.foldl deleteKey m) = false := by
  induction fs with
  | nil => intro m f h; exact h
  | cons f0 rest ih =>
    intro m f h
    exact ih _ f (containsKey_deleteKey_false h)

theorem foldl_deleteKey_mem (fs : List String) :
    ∀ (m : Manifest) (f : String), f ∈ fs →
      containsKey f (fs.foldl deleteKey m) = false := by
  induction fs with
  | nil => intro _ _ h; cases h
  | cons f0 rest ih =>
    intro m f h
    rcases List.mem_cons.mp h with h1 | h2
    · rw [List.foldl_cons]
      apply foldl_deleteKey_false
      rw [h1]
      exact containsKey_deleteKey_self m f0
    · exact ih _ f h2

theorem foldl_deleteKey_eq_self (fs : List String) :
    ∀ m : Manifest, (∀ f ∈ fs, containsKey f m = false) →
      fs.foldl deleteKey m = m := by
  induction fs with
  | nil => intro m _; rfl
  | cons f0 rest ih =>
    intro m h
    rw [List.foldl_cons, deleteKey_eq_self (h f0 (List.mem_cons_self _ _))]
    exact ih m (fun f hf => h f (List.mem_cons_of_mem _ hf))

theorem containsKey_removeAuditable (m : Manifest) (f : String)
    (hf : f ∈ auditableFieldsToIgnore) :
    containsKey f (removeAuditableFields m) = false :=
  foldl_deleteKey_mem auditableFieldsToIgnore m f hf

theorem containsKey_workflowDefCleanup_audit (m : Manifest) :
    ∀ f ∈ auditableFieldsToIgnore, containsKey f (workflowDefCleanup m) = false := by
  intro f hf
  have hm2 : containsKey f (cleanupManifestDefaults (removeAuditableFields m)
      defaultWorkflowDefValues) = false := by
    by_cases hc : containsKey f (cleanupManifestDefaults (removeAuditableFields m)
        defaultWorkflowDefValues) = true
    · have h1 := containsKey_filter hc
      rw [containsKey_removeAuditable m f hf] at h1
      cases h1
    · simpa using hc
  have hft : f ≠ "tasks" := by
    fin_cases hf <;> decide
  rw [workflowDefCleanup_def]
  split
  · rw [containsKey_setKey_ne _ _ _ _ hft]
    exact hm2
  · exact hm2

theorem removeAuditable_workflowDefCleanup (m : Manifest) :
    removeAuditableFields (workflowDefCleanup m) = workflowDefCleanup m :=
  foldl_deleteKey_eq_self auditableFieldsToIgnore (workflowDefCleanup m)
    (fun f hf => containsKey_workflowDefCleanup_audit m f hf)

theorem cleanup_workflowDefCleanup (m : Manifest) :
    cleanupManifestDefaults (workflowDefCleanup m) defaultWorkflowDefValues =
      workflowDefCleanup m := by
  apply cleanup_eq_self
  intro p hp
  rw [workflowDefCleanup_def] at hp
  revert hp
  split
  · rename_i ts heq
    intro hp
    rcases mem_setKey hp with h1 | h1
    · rw [h1]
      have hkeep := cleanup_mem_keep (mem_of_lookupField heq)
      have hne : ts.isEmpty = false := by
        simpa [cleanupDeletesKey] using hkeep
      have : (ts.map cleanupWorkflowTask).isEmpty = false := by
        cases ts with
        | nil => simp [List.isEmpty] at hne
        | cons t rest => rfl
      simpa [cleanupDeletesKey] using this
    · exact cleanup_mem_keep h1
  · intro hp
    exact cleanup_mem_keep hp

theorem cleanupWorkflowTask_idem (t : JValue) :
    cleanupWorkflowTask (cleanupWorkflowTask t) = cleanupWorkflowTask t := by
  cases t with
  | obj fields =>
    show JValue.obj (cleanupManifestDefaults
        (cleanupManifestDefaults fields defaultWorkflowDefTaskValues)
        defaultWorkflowDefTaskValues) =
      JValue.obj (cleanupManifestDefaults fields defaultWorkflowDefTaskValues)
    rw [cleanupManifestDefaults_idem]
  | null => rfl
  | bool b => rfl
  | num q => rfl
  | str s => rfl
  | arr xs => rfl

theorem map_cleanupWorkflowTask_idem (ts : List JValue) :
    (ts.map cleanupWorkflowTask).map cleanupWorkflowTask = ts.map cleanupWorkflowTask := by
  induction ts with
  | nil => rfl
  | cons t rest ih =>
    simp only [List.map_cons, cleanupWorkflowTask_idem, ih]

theorem workflowDefCleanup_catchall (m : Manifest)
    (h : ∀ ts, lookupField "tasks"
      (cleanupManifestDefaults (removeAuditableFields m) defaultWorkflowDefValues) ≠
        some (.arr ts)) :
    workflowDefCleanup m =
      cleanupManifestDefaults (removeAuditableFields m) defaultWorkflowDefValues := by
  rw [workflowDefCleanup_def]
  split
  · rename_i ts heq
    exact absurd heq (h ts)
  · rfl

theorem workflowDefCleanup_idem (m : Manifest) :
    workflowDefCleanup (workflowDefCleanup m) = workflowDefCleanup m := by
  by_cases hex : ∃ ts, lookupField "tasks"
      (cleanupManifestDefaults (removeAuditableFields m) defaultWorkflowDefValues) =
        some (.arr ts)
  · obtain ⟨ts, hl⟩ := hex
    have hw : workflowDefCleanup m =
        setKey (cleanupManifestDefaults (removeAuditableFields m) defaultWorkflowDefValues)
          "tasks" (.arr (ts.map cleanupWorkflowTask)) := by
      rw [workflowDefCleanup_def, hl]
    rw [workflowDefCleanup_def (workflowDefCleanup m),
      removeAuditable_workflowDefCleanup, cleanup_workflowDefCleanup, hw,
      lookupField_setKey_self]
    simp only [setKey_setKey, map_cleanupWorkflowTask_idem]
  · push_neg at hex
    have hw : workflowDefCleanup m =
        cleanupManifestDefaults (removeAuditableFields m) defaultWorkflowDefValues :=
      workflowDefCleanup_catchall m hex
    rw [workflowDefCleanup_def (workflowDefCleanup m),
      removeAuditable_workflowDefCleanup, cleanup_workflowDefCleanup]
    rw [hw]
    split
    · rename_i ts heq
      exact absurd heq (hex ts)
    · rfl

/-- Claim C9: no-op stability of the plan-equality check: for any
well-formed manifest, comparing it against an already-elided copy of
itself (both sides passed through the class elision pass, then deep
structural equality, as `ModifyPlan` does for both resources) reports
equality, so no update is dispatched. -/
theorem modifyPlanNoOpStability (m : Manifest) (h : wfManifest m = true) :
    taskDefModifyPlanIsNoOp m (cleanupManifestDefaults m defaultTaskDefValues) = true ∧
      workflowDefModifyPlanIsNoOp m (workflowDefCleanup m) = true := by
  constructor
  · unfold taskDefModifyPlanIsNoOp
    rw [cleanupManifestDefaults_idem]
    apply deepEqual_refl
    have h1 := wfManifest_cleanup defaultTaskDefValues h
    unfold wfManifest at h1
    simpa [wfJ] using h1
  · unfold workflowDefModifyPlanIsNoOp
    rw [workflowDefCleanup_idem]
    apply deepEqual_refl
    have h1 := wfManifest_workflowDefCleanup h
    unfold wfManifest at h1
    simpa [wfJ] using h1

theorem modifyPlanNoOpStability_witness :
    taskDefModifyPlanIsNoOp
        [(("name" : String), JValue.str "w1"), ("schemaVersion", JValue.num 2),
         ("tasks", JValue.arr [JValue.obj [("name", JValue.str "t1"),
           ("type", JValue.str "SIMPLE")]])]
        (cleanupManifestDefaults
          [(("name" : String), JValue.str "w1"), ("schemaVersion", JValue.num 2),
           ("tasks", JValue.arr [JValue.obj [("name", JValue.str "t1"),
             ("type", JValue.str "SIMPLE")]])]
          defaultTaskDefValues) = true ∧
      workflowDefModifyPlanIsNoOp
        [(("name" : String), JValue.str "w1"), ("schemaVersion", JValue.num 2),
         ("tasks", JValue.arr [JValue.obj [("name", JValue.str "t1"),
           ("type", JValue.str "SIMPLE")]])]
        (workflowDefCleanup
          [(("name" : String), JValue.str "w1"), ("schemaVersion", JValue.num 2),
           ("tasks", JValue.arr [JValue.obj [("name", JValue.str "t1"),
             ("type", JValue.str "SIMPLE")]])]) = true :=
  modifyPlanNoOpStability
    [(("name" : String), JValue.str "w1"), ("schemaVersion", JValue.num 2),
     ("tasks", JValue.arr [JValue.obj [("name", JValue.str "t1"),
       ("type", JValue.str "SIMPLE")]])]
    rfl

/-!
Embedding of the workflow definition versioning state machine
(`checkExistingVersionBeforeCreate`, `verifyValidVersionForUpdate`,
`getLatestVersion` and the Create / Update / Delete flows of the
workflow definition resource).  The transport collaborator is
abstracted by the decoded outcome of each HTTP call.
-/

/-- The decoded outcome of a GET for a manifest: transport failure,
404, some other bad status, an unreadable or unparseable body, or a
decoded manifest from a 200. -/
inductive GetManifestResult : Type where
  | transportError : GetManifestResult
  | notFound : GetManifestResult
  | httpError (status : Nat) : GetManifestResult
  | badBody : GetManifestResult
  | ok (manifest : Manifest) : GetManifestResult

/-- The error cases of `getWorkflowVersionOptionalFromManifest` and
`getWorkflowVersionFromManifest`. -/
inductive VersionError : Type where
  | notAnInt : VersionError
  | smallerThanOne : VersionError
  | missing : VersionError

/-- `getWorkflowVersionOptionalFromManifest`: no `version` key is
fine; the value must be a float64 holding an integer that is at least
1. -/
def getWorkflowVersionOptionalFromManifest (manifestMap : Manifest) :
    Except VersionError (Option Int) :=
  match lookupField "version" manifestMap with
  | none => .ok none
  | some (.num versionFloat) =>
    if versionFloat.den = 1 then
      if versionFloat.num < 1 then .error .smallerThanOne
      else .ok (some versionFloat.num)
    else .error .notAnInt
  | some _ => .error .notAnInt

/-- `getWorkflowVersionFromManifest`: as the optional variant, but the
key must be present. -/
def getWorkflowVersionFromManifest (manifestMap : Manifest) :
    Except VersionError Int :=
  match getWorkflowVersionOptionalFromManifest manifestMap with
  | .error e => .error e
  | .ok none => .error .missing
  | .ok (some version) => .ok version

/-- `getWorkflowNameFromManifest` (and the identical
`getTaskTypeFromManifest`): the `name` key must hold a non-empty
string; `none` embeds the diagnostic error. -/
def getWorkflowNameFromManifest (manifestMap : Manifest) : Option String :=
  match lookupField "name" manifestMap with
  | some (.str taskType) => if taskType = "" then none else some taskType
  | _ => none

/-- The decision computed by `checkExistingVersionBeforeCreate`:
abort with diagnostics, issue the create write at a version, or skip
the write and keep the server version. -/
inductive CreateDecision : Type where
  | fail : CreateDecision
  | write (version : Int) : CreateDecision
  | noop (version : Int) : CreateDecision

/-- `checkExistingVersionBeforeCreate`, as a function of the plan
manifest and the decoded GET for the name.  Manual mode (a `version`
key in the plan): 404 creates the requested version as-is, otherwise
the requested version must not be below the server one or the call
fails; no drift check is performed.  Auto mode (no `version` key): 404
creates version 1; otherwise both sides are cleaned (the server copy
with `version` removed first) and compared with `reflect.DeepEqual`:
equality skips the write and keeps the server version, inequality
writes at the server version plus one. -/
def checkExistingVersionBeforeCreate (planMap : Manifest)
    (getResult : GetManifestResult) : CreateDecision :=
  match getWorkflowNameFromManifest planMap with
  | none => .fail
  | some _ =>
    match getWorkflowVersionOptionalFromManifest planMap with
    | .error _ => .fail
    | .ok versionOpt =>
      match getResult with
      | .transportError => .fail
      | .notFound =>
        match versionOpt with
        | some version => .write version
        | none => .write 1
      | .badBody => .fail
      | .httpError _ => .fail
      | .ok currentManifestMap =>
        match getWorkflowVersionFromManifest currentManifestMap with
        | .error _ => .fail
        | .ok currentVersion =>
          match versionOpt with
          | some version =>
            if version < currentVersion then .fail
            else .write version
          | none =>
            if deepEqual (.obj (workflowDefCleanup planMap))
                (.obj (workflowDefCleanup (deleteKey currentManifestMap "version"))) then
              .noop currentVersion
            else .write (currentVersion + 1)

/-- `WorkflowDefResource.Create` at the decision level: `none` embeds
a diagnostics abort; otherwise the flag says whether the create write
is issued (assumed to succeed) and the integer is the tracked version
stored into state. -/
def workflowDefCreate (planMap : Manifest) (getResult : GetManifestResult) :
    Option (Bool × Int) :=
  match checkExistingVersionBeforeCreate planMap getResult with
  | .fail => none
  | .write version => some (true, version)
  | .noop version => some (false, version)

/-- `verifyValidVersionForUpdate`: `true` when the requested version
passes (a 404 for the name passes; otherwise the server version is
read and the requested version must not be below it). -/
def verifyValidVersionForUpdate (planMap : Manifest) (planVersion : Int)
    (getResult : GetManifestResult) : Bool :=
  match getWorkflowNameFromManifest planMap with
  | none => false
  | some _ =>
    match getResult with
    | .transportError => false
    | .notFound => true
    | .badBody => false
    | .httpError _ => false
    | .ok currentManifestMap =>
      match getWorkflowVersionFromManifest currentManifestMap with
      | .error _ => false
      | .ok currentVersion => !(decide (planVersion < currentVersion))

/-- `WorkflowDefResource.Update` at the decision level: the auditable
fields are stripped; a `version` key in the plan is validated against
the server latest and written verbatim, no `version` key means the
tracked state version plus one is assigned and written
unconditionally.  `some v` embeds a PUT issued with version `v`
(assumed to succeed), `none` a diagnostics abort with no write. -/
def workflowDefUpdate (planMap : Manifest) (stateVersion : Int)
    (getResult : GetManifestResult) : Option Int :=
  let manifestMap := removeAuditableFields planMap
  match getWorkflowVersionOptionalFromManifest manifestMap with
  | .error _ => none
  | .ok (some planVersion) =>
    if verifyValidVersionForUpdate manifestMap planVersion getResult then
      some planVersion
    else none
  | .ok none => some (stateVersion + 1)

/-- Claim C1: auto-mode create (no `version` key in the plan): a 404
for the name assigns version 1 and issues the create write; when the
name exists at server version `v` and the cleaned plan deep-equals the
cleaned server manifest with `version` removed, no write is issued and
the tracked version becomes `v`; otherwise version `v + 1` is assigned
and the write is issued. -/
theorem workflowDefCreate_autoMode (planMap current : Manifest) (s : String)
    (hname : lookupField "name" planMap = some (.str s)) (hs : s ≠ "")
    (hauto : lookupField "version" planMap = none) :
    (checkExistingVersionBeforeCreate planMap .notFound = .write 1 ∧
      workflowDefCreate planMap .notFound = some (true, 1)) ∧
    (∀ v : Int, getWorkflowVersionFromManifest current = .ok v →
      (deepEqual (.obj (workflowDefCleanup planMap))
          (.obj (workflowDefCleanup (deleteKey current "version"))) = true →
        checkExistingVersionBeforeCreate planMap (.ok current) = .noop v ∧
          workflowDefCreate planMap (.ok current) = some (false, v)) ∧
      (deepEqual (.obj (workflowDefCleanup planMap))
          (.obj (workflowDefCleanup (deleteKey current "version"))) = false →
        checkExistingVersionBeforeCreate planMap (.ok current) = .write (v + 1) ∧
          workflowDefCreate planMap (.ok current) = some (true, v + 1))) := by
  have hn : getWorkflowNameFromManifest planMap = some s := by
    simp [getWorkflowNameFromManifest, hname, hs]
  have hvo : getWorkflowVersionOptionalFromManifest planMap = .ok none := by
    simp [getWorkflowVersionOptionalFromManifest, hauto]
  refine ⟨⟨?_, ?_⟩, ?_⟩
  · simp [checkExistingVersionBeforeCreate, hn, hvo]
  · simp [workflowDefCreate, checkExistingVersionBeforeCreate, hn, hvo]
  · intro v hv
    constructor
    · intro hdeep
      constructor
      · simp [checkExistingVersionBeforeCreate, hn, hvo, hv, hdeep]
      · simp [workflowDefCreate, checkExistingVersionBeforeCreate, hn, hvo, hv, hdeep]
    · intro hdeep
      constructor
      · simp [checkExistingVersionBeforeCreate, hn, hvo, hv, hdeep]
      · simp [workflowDefCreate, checkExistingVersionBeforeCreate, hn, hvo, hv, hdeep]

theorem workflowDefCreate_autoMode_witness :
    (checkExistingVersionBeforeCreate
        [(("name" : String), JValue.str "w1"), ("schemaVersion", JValue.num 2)]
        (.ok [(("name" : String), JValue.str "w1"), ("version", JValue.num 2),
          ("schemaVersion", JValue.num 2)]) = .noop 2) ∧
      (workflowDefCreate
        [(("name" : String), JValue.str "w1"), ("schemaVersion", JValue.num 2)]
        (.ok [(("name" : String), JValue.str "w1"), ("version", JValue.num 2),
          ("schemaVersion", JValue.num 2)]) = some (false, 2)) ∧
      (checkExistingVersionBeforeCreate
        [(("name" : String), JValue.str "w1"), ("schemaVersion", JValue.num 2)]
        .notFound = .write 1) := by
  have h := workflowDefCreate_autoMode
    [(("name" : String), JValue.str "w1"), ("schemaVersion", JValue.num 2)]
    [(("name" : String), JValue.str "w1"), ("version", JValue.num 2),
      ("schemaVersion", JValue.num 2)]
    "w1" rfl (by decide) rfl
  exact ⟨((h.2 2 rfl).1 rfl).1, ((h.2 2 rfl).1 rfl).2, h.1.1⟩

/-- Counterexample to claim C4: a manual-mode create whose manifest is
drift-equal to the server one (cleaned, `version` removed from both
sides) still issues a write: the code performs no drift check in
manual mode. -/
theorem createManualMode_noDriftCheck_cex :
    checkExistingVersionBeforeCreate
        [(("name" : String), JValue.str "w1"), ("version", JValue.num 2)]
        (.ok [(("name" : String), JValue.str "w1"), ("version", JValue.num 2)]) =
      .write 2 ∧
    workflowDefCreate
        [(("name" : String), JValue.str "w1"), ("version", JValue.num 2)]
        (.ok [(("name" : String), JValue.str "w1"), ("version", JValue.num 2)]) =
      some (true, 2) ∧
    deepEqual
        (.obj (workflowDefCleanup
          (deleteKey [(("name" : String), JValue.str "w1"), ("version", JValue.num 2)]
            "version")))
        (.obj (workflowDefCleanup
          (deleteKey [(("name" : String), JValue.str "w1"), ("version", JValue.num 2)]
            "version"))) = true :=
  ⟨rfl, rfl, rfl⟩

/-- Claim C4 as amended: manual-mode create (integer `version` key
present, at least 1) performs no drift check; a 404 for the name
creates the requested version as-is; when the name exists, the
requested version must be at least the current server version or the
operation fails with a version conflict, and otherwise the requested
version is written. -/
theorem workflowDefCreate_manualMode (planMap current : Manifest) (s : String)
    (v : Int)
    (hname : lookupField "name" planMap = some (.str s)) (hs : s ≠ "")
    (hv : getWorkflowVersionOptionalFromManifest planMap = .ok (some v)) :
    (checkExistingVersionBeforeCreate planMap .notFound = .write v ∧
      workflowDefCreate planMap .notFound = some (true, v)) ∧
    (∀ cv : Int, getWorkflowVersionFromManifest current = .ok cv →
      (v < cv → checkExistingVersionBeforeCreate planMap (.ok current) = .fail ∧
        workflowDefCreate planMap (.ok current) = none) ∧
      (cv ≤ v → checkExistingVersionBeforeCreate planMap (.ok current) = .write v ∧
        workflowDefCreate planMap (.ok current) = some (true, v))) := by
  have hn : getWorkflowNameFromManifest planMap = some s := by
    simp [getWorkflowNameFromManifest, hname, hs]
  refine ⟨⟨?_, ?_⟩, ?_⟩
  · simp [checkExistingVersionBeforeCreate, hn, hv]
  · simp [workflowDefCreate, checkExistingVersionBeforeCreate, hn, hv]
  · intro cv hcv
    constructor
    · intro hlt
      constructor
      · simp [checkExistingVersionBeforeCreate, hn, hv, hcv, hlt]
      · simp [workflowDefCreate, checkExistingVersionBeforeCreate, hn, hv, hcv, hlt]
    · intro hle
      have hnlt : ¬ v < cv := not_lt.mpr hle
      constructor
      · simp [checkExistingVersionBeforeCreate, hn, hv, hcv, hnlt]
      · simp [workflowDefCreate, checkExistingVersionBeforeCreate, hn, hv, hcv, hnlt]

theorem workflowDefCreate_manualMode_witness :
    (checkExistingVersionBeforeCreate
        [(("name" : String), JValue.str "w1"), ("version", JValue.num 2)]
        (.ok [(("name" : String), JValue.str "w1"), ("version", JValue.num 3)]) =
      .fail) ∧
      (checkExistingVersionBeforeCreate
        [(("name" : String), JValue.str "w1"), ("version", JValue.num 2)]
        .notFound = .write 2) := by
  have h := workflowDefCreate_manualMode
    [(("name" : String), JValue.str "w1"), ("version", JValue.num 2)]
    [(("name" : String), JValue.str "w1"), ("version", JValue.num 3)]
    "w1" 2 rfl (by decide) rfl
  exact ⟨((h.2 3 rfl).1 (by decide)).1, h.1.1⟩

/-- Claim C3: workflow definition update.  With a `version` key in the
plan, the requested version is checked against the server latest
before writing: below it, the operation fails with a version conflict
and no write is issued; otherwise the requested version is written
verbatim.  Without the key, the tracked state version plus one is
assigned and a write is always issued, whatever the server would
answer. -/
theorem workflowDefUpdate_versioning (planMap current : Manifest)
    (stateVersion : Int) (s : String)
    (hname : lookupField "name" (removeAuditableFields planMap) = some (.str s))
    (hs : s ≠ "") :
    (∀ v : Int,
      getWorkflowVersionOptionalFromManifest (removeAuditableFields planMap) =
        .ok (some v) →
      ∀ cv : Int, getWorkflowVersionFromManifest current = .ok cv →
        (v < cv → workflowDefUpdate planMap stateVersion (.ok current) = none) ∧
        (cv ≤ v → workflowDefUpdate planMap stateVersion (.ok current) = some v)) ∧
    (getWorkflowVersionOptionalFromManifest (removeAuditableFields planMap) =
        .ok none →
      ∀ g : GetManifestResult,
        workflowDefUpdate planMap stateVersion g = some (stateVersion + 1)) := by
  have hn : getWorkflowNameFromManifest (removeAuditableFields planMap) = some s := by
    simp [getWorkflowNameFromManifest, hname, hs]
  constructor
  · intro v hv cv hcv
    constructor
    · intro hlt
      simp [workflowDefUpdate, verifyValidVersionForUpdate, hn, hv, hcv, hlt]
    · intro hle
      have hnlt : ¬ v < cv := not_lt.mpr hle
      simp [workflowDefUpdate, verifyValidVersionForUpdate, hn, hv, hcv, hnlt]
  · intro hv g
    simp [workflowDefUpdate, hv]

theorem workflowDefUpdate_versioning_witness :
    (workflowDefUpdate
        [(("name" : String), JValue.str "w1"), ("version", JValue.num 1)] 9
        (.ok [(("name" : String), JValue.str "w1"), ("version", JValue.num 3)]) =
      none) ∧
      (workflowDefUpdate [(("name" : String), JValue.str "w1")] 2 .notFound =
        some 3) := by
  have h1 := workflowDefUpdate_versioning
    [(("name" : String), JValue.str "w1"), ("version", JValue.num 1)]
    [(("name" : String), JValue.str "w1"), ("version", JValue.num 3)]
    9 "w1" rfl (by decide)
  have h2 := workflowDefUpdate_versioning
    [(("name" : String), JValue.str "w1")]
    [] 2 "w1" rfl (by decide)
  exact ⟨(h1.1 1 rfl 3 rfl).1 (by decide), h2.2 rfl .notFound⟩

/-!
Embedding of the delete flows.  A raw transport outcome is either a
transport error or a status code with a body.
-/

/-- Outcome of one raw HTTP call (`client.do`). -/
inductive TransportResult : Type where
  | err : TransportResult
  | resp (status : Nat) (body : String) : TransportResult

/-- `TaskDefResource.Delete` after the state decode: the DELETE
response, and the follow-up GET response consulted only on a 500.
Returns whether the delete succeeds and how many disambiguating GET
calls were issued: a 200 succeeds with no GET; a 500 issues exactly
one GET and succeeds only when that GET is a 404; every other non-200
(and a transport error) fails with no GET. -/
def taskDefDelete (deleteResult getResult : TransportResult) : Bool × Nat :=
  match deleteResult with
  | .err => (false, 0)
  | .resp status _ =>
    if status ≠ 200 then
      if status = 500 then
        let alreadyDeleted : Bool :=
          match getResult with
          | .err => false
          | .resp getStatus _ => decide (getStatus = 404)
        if alreadyDeleted then (true, 1) else (false, 1)
      else (false, 0)
    else (true, 0)

/-- The response handling of one version DELETE inside
`WorkflowDefResource.Delete`: any non-200 (a 500 included) is a hard
failure, and no disambiguating GET is ever issued (count always 0). -/
def workflowDefVersionDeleteOutcome : TransportResult → Bool × Nat
  | .err => (false, 0)
  | .resp status _ => if status = 200 then (true, 0) else (false, 0)

/-- The outcome of `getLatestVersion`: a diagnostics abort, a 404 (no
version resolves for the name), or the latest server version. -/
inductive LatestVersionResult : Type where
  | errorStop : LatestVersionResult
  | noVersion : LatestVersionResult
  | version (v : Int) : LatestVersionResult

/-- `getLatestVersion`, as a function of the decoded GET for the
name: transport errors, bad statuses, unreadable bodies and manifests
without a valid version abort with diagnostics; a 404 reports that no
version resolves; a 200 reports the version of the manifest. -/
def getLatestVersion (getResult : GetManifestResult) : LatestVersionResult :=
  match getResult with
  | .transportError => .errorStop
  | .notFound => .noVersion
  | .badBody => .errorStop
  | .httpError _ => .errorStop
  | .ok currentManifestMap =>
    match getWorkflowVersionFromManifest currentManifestMap with
    | .error _ => .errorStop
    | .ok currentVersion => .version currentVersion

/-- A server model for the workflow delete loop: each remote call
consumes the server state and yields the decoded response. -/
structure DeleteServer (σ : Type) : Type where
  getLatest : σ → GetManifestResult × σ
  deleteVersion : σ → Int → TransportResult × σ

/-- Outcome of the version-delete loop of
`WorkflowDefResource.Delete`, with the chronological list of version
DELETE calls issued. -/
inductive DeleteLoopResult (σ : Type) : Type where
  | success (deleteCalls : List Int) (final : σ) : DeleteLoopResult σ
  | sameTwiceError (deleteCalls : List Int) : DeleteLoopResult σ
  | failError (deleteCalls : List Int) : DeleteLoopResult σ
  | fuelExhausted : DeleteLoopResult σ

/-- The `for` loop of `WorkflowDefResource.Delete`: fetch the latest
version for the name; stop successfully on a 404; abort fatally when
the same version would be deleted twice in a row; otherwise delete
that version and continue.  The Go loop is unbounded; `fuel` bounds
the embedding, with `fuelExhausted` never reached on a server that
retires versions. -/
def workflowDefDelete {σ : Type} (S : DeleteServer σ) :
    Nat → σ → Int → List Int → DeleteLoopResult σ
  | 0, _, _, _ => .fuelExhausted
  | fuel + 1, s, currentVersion, deleteCalls =>
    match getLatestVersion (S.getLatest s).1 with
    | .errorStop => .failError deleteCalls.reverse
    | .noVersion => .success deleteCalls.reverse (S.getLatest s).2
    | .version nextVersion =>
      if 0 < currentVersion ∧ currentVersion = nextVersion then
        .sameTwiceError deleteCalls.reverse
      else
        if (workflowDefVersionDeleteOutcome
            (S.deleteVersion (S.getLatest s).2 nextVersion).1).1 then
          workflowDefDelete S fuel (S.deleteVersion (S.getLatest s).2 nextVersion).2
            nextVersion (nextVersion :: deleteCalls)
        else .failError (nextVersion :: deleteCalls).reverse

/-- A minimal decoded 200 body for the name: a manifest holding the
latest version. -/
def versionManifest (v : Int) : Manifest :=
  [("version", .num (v : Rat))]

/-- The versions `n, n - 1, ..., 1`. -/
def descendingVersions : Nat → List Int
  | 0 => []
  | n + 1 => ((n : Int) + 1) :: descendingVersions n

/-- An ideal server holding a set of versions (kept sorted
descending): GET returns 404 when no version is left and the greatest
version otherwise; DELETE retires the named version and answers
200. -/
def idealVersionServer : DeleteServer (List Int) where
  getLatest s :=
    match s with
    | [] => (.notFound, s)
    | v :: _ => (.ok (versionManifest v), s)
  deleteVersion s v := (.resp 200 "", s.erase v)

/-- A broken server that never retires version 5. -/
def stuckVersionServer : DeleteServer Unit where
  getLatest _ := (.ok (versionManifest 5), ())
  deleteVersion _ _ := (.resp 200 "", ())

theorem getWorkflowVersionFromManifest_versionManifest (v : Int) (hv : 1 ≤ v) :
    getWorkflowVersionFromManifest (versionManifest v) = .ok v := by
  unfold getWorkflowVersionFromManifest getWorkflowVersionOptionalFromManifest
    versionManifest
  simp [lookupField, Rat.den_intCast, Rat.num_intCast, not_lt.mpr hv]

theorem mem_descendingVersions {n : Nat} {x : Int}
    (h : x ∈ descendingVersions n) : 1 ≤ x ∧ x ≤ (n : Int) := by
  induction n with
  | zero => cases h
  | succ n ih =>
    rcases List.mem_cons.mp h with h1 | h1
    · rw [h1]
      constructor <;> omega
    · have h2 := ih h1
      push_cast
      omega

theorem workflowDefDelete_ideal (n : Nat) :
    ∀ (fuel : Nat) (cur : Int) (acc : List Int), n < fuel →
      (cur = 0 ∨ ∀ x ∈ descendingVersions n, x < cur) →
      workflowDefDelete idealVersionServer fuel (descendingVersions n) cur acc =
        .success (acc.reverse ++ descendingVersions n) [] := by
  induction n with
  | zero =>
    intro fuel cur acc hf _
    cases fuel with
    | zero => omega
    | succ f =>
      simp [workflowDefDelete, idealVersionServer, getLatestVersion,
        descendingVersions]
  | succ n ih =>
    intro fuel cur acc hf hcur
    cases fuel with
    | zero => omega
    | succ f =>
      have hv1 : (1 : Int) ≤ (n : Int) + 1 := by omega
      have hg := getWorkflowVersionFromManifest_versionManifest ((n : Int) + 1) hv1
      have hguard : ¬ (0 < cur ∧ cur = (n : Int) + 1) := by
        rcases hcur with h0 | hgt
        · omega
        · have := hgt ((n : Int) + 1) (List.mem_cons_self _ _)
          omega
      have hrec := ih f ((n : Int) + 1) (((n : Int) + 1) :: acc)
        (by omega)
        (Or.inr (fun x hx => by
          have := mem_descendingVersions hx
          omega))
      have hgl1 : (idealVersionServer.getLatest
          (((n : Int) + 1) :: descendingVersions n)).1 =
          .ok (versionManifest ((n : Int) + 1)) := rfl
      have hgl2 : (idealVersionServer.getLatest
          (((n : Int) + 1) :: descendingVersions n)).2 =
          ((n : Int) + 1) :: descendingVersions n := rfl
      have hdel1 : (idealVersionServer.deleteVersion
          (((n : Int) + 1) :: descendingVersions n) ((n : Int) + 1)).1 =
          .resp 200 "" := rfl
      have hdel2 : (idealVersionServer.deleteVersion
          (((n : Int) + 1) :: descendingVersions n) ((n : Int) + 1)).2 =
          descendingVersions n := List.erase_cons_head _ _
      rw [show descendingVersions (n + 1) = ((n : Int) + 1) :: descendingVersions n
        from rfl]
      rw [workflowDefDelete, hgl1]
      simp only [getLatestVersion, hg]
      rw [if_neg hguard, hgl2, hdel1, hdel2,
        if_pos (show (workflowDefVersionDeleteOutcome (.resp 200 "")).1 = true from rfl),
        hrec]
      simp [List.append_assoc]

/-- Claim C2: the workflow version-delete loop.  With server versions
`n, ..., 1` retired one by one by an ideal server, the loop issues
exactly `n` version DELETE calls, for versions `n, n - 1, ..., 1` in
that order, and terminates successfully when the name stops resolving
(404, server empty).  Whenever the latest version fetched equals the
version just deleted, the loop instead aborts with the fatal
same-version-twice error. -/
theorem workflowDefDelete_loop_behavior :
    (∀ n : Nat,
      workflowDefDelete idealVersionServer (n + 1) (descendingVersions n) 0 [] =
        .success (descendingVersions n) [] ∧
      (descendingVersions n).length = n) ∧
    (∀ (σ : Type) (S : DeleteServer σ) (fuel : Nat) (s : σ) (cur : Int)
      (acc : List Int), 0 < cur →
      getLatestVersion (S.getLatest s).1 = .version cur →
      workflowDefDelete S (fuel + 1) s cur acc = .sameTwiceError acc.reverse) := by
  constructor
  · intro n
    constructor
    · have h := workflowDefDelete_ideal n (n + 1) 0 [] (by omega) (Or.inl rfl)
      simpa using h
    · induction n with
      | zero => rfl
      | succ n ih => simp [descendingVersions, ih]
  · intro σ S fuel s cur acc hpos hget
    rw [workflowDefDelete, hget]
    simp [hpos]

theorem workflowDefDelete_loop_behavior_witness :
    (workflowDefDelete idealVersionServer 4 (descendingVersions 3) 0 [] =
      .success (descendingVersions 3) []) ∧
      (descendingVersions 3).length = 3 ∧
      (workflowDefDelete stuckVersionServer 1 () 5 [] =
        .sameTwiceError []) := by
  refine ⟨(workflowDefDelete_loop_behavior.1 3).1, (workflowDefDelete_loop_behavior.1 3).2, ?_⟩
  have h := workflowDefDelete_loop_behavior.2 Unit stuckVersionServer 0 () 5 []
    (by decide) rfl
  simpa using h

/-- Counterexample to claim C5: the workflow definition version delete
performs no 500 disambiguation: a 500 immediately after the DELETE
issues zero follow-up GET calls and is a hard failure, while the task
definition delete in the same situation issues exactly one GET and
succeeds when that GET is a 404. -/
theorem workflowVersionDelete500_cex :
    workflowDefVersionDeleteOutcome (.resp 500 "boom") = (false, 0) ∧
      taskDefDelete (.resp 500 "boom") (.resp 404 "") = (true, 1) :=
  ⟨rfl, rfl⟩

/-- Claim C5 as amended: only the task definition delete
disambiguates a 500: it then issues exactly one follow-up GET and
succeeds iff that GET returns 404 (any other response, a transport
error included, surfaces the 500 as a hard failure); the workflow
definition version delete issues no follow-up GET and treats every
non-200 status, a 500 included, as a hard failure. -/
theorem deleteDisambiguation500 (b : String) (g : TransportResult) :
    ((taskDefDelete (.resp 500 b) g).2 = 1 ∧
      ((taskDefDelete (.resp 500 b) g).1 = true ↔
        ∃ gb : String, g = .resp 404 gb)) ∧
    (∀ st : Nat, st ≠ 200 →
      workflowDefVersionDeleteOutcome (.resp st b) = (false, 0)) := by
  refine ⟨⟨?_, ?_⟩, ?_⟩
  · cases g with
    | err => rfl
    | resp getStatus gb =>
      by_cases h4 : getStatus = 404 <;> simp [taskDefDelete, h4]
  · cases g with
    | err => simp [taskDefDelete]
    | resp getStatus gb =>
      by_cases h4 : getStatus = 404 <;> simp [taskDefDelete, h4]
  · intro st hst
    simp [workflowDefVersionDeleteOutcome, hst]

theorem deleteDisambiguation500_witness :
    ((taskDefDelete (.resp 500 "boom") (.resp 502 "down")).2 = 1) ∧
      (workflowDefVersionDeleteOutcome (.resp 500 "boom") = (false, 0)) := by
  have h := deleteDisambiguation500 "boom" (.resp 502 "down")
  exact ⟨h.1.1, h.2 500 (by decide)⟩

/-!
Embedding of `manifest_name_validator.go`.
-/

/-- The configuration value handed to the validator: a null value, a
string that does not decode into a JSON object, or a decoded
object. -/
inductive ConfigStringValue : Type where
  | nullValue : ConfigStringValue
  | parseError : ConfigStringValue
  | parsed (planMap : Manifest) : ConfigStringValue

/-- A diagnostic of the manifest name validator. -/
inductive NameValidation : Type where
  | ok : NameValidation
  | missingName : NameValidation
  | invalidName : NameValidation

/-- `manifestNameValidator.ValidateString`: null or undecodable
values pass silently; a decoded object must hold a non-empty string
under `name`. -/
def manifestNameValidate : ConfigStringValue → NameValidation
  | .nullValue => .ok
  | .parseError => .ok
  | .parsed planMap =>
    match lookupField "name" planMap with
    | none => .missingName
    | some (.str nameStr) => if nameStr = "" then .invalidName else .ok
    | some _ => .invalidName

/-- Claim C10: the manifest name validator adds no diagnostic for a
null or unparseable configuration value; a missing-name or
non-string/empty-name diagnostic arises only from a decoded object,
exactly when no non-empty string sits under `name`. -/
theorem manifestNameValidate_behavior :
    manifestNameValidate .nullValue = .ok ∧
    manifestNameValidate .parseError = .ok ∧
    (∀ m : Manifest, manifestNameValidate (.parsed m) = .ok ↔
      ∃ s : String, lookupField "name" m = some (.str s) ∧ s ≠ "") := by
  refine ⟨rfl, rfl, ?_⟩
  intro m
  constructor
  · intro h
    cases hl : lookupField "name" m with
    | none => simp [manifestNameValidate, hl] at h
    | some v =>
      cases v with
      | str nameStr =>
        by_cases he : nameStr = ""
        · simp [manifestNameValidate, hl, he] at h
        · exact ⟨nameStr, rfl, he⟩
      | null => simp [manifestNameValidate, hl] at h
      | bool b => simp [manifestNameValidate, hl] at h
      | num q => simp [manifestNameValidate, hl] at h
      | arr xs => simp [manifestNameValidate, hl] at h
      | obj fs => simp [manifestNameValidate, hl] at h
  · rintro ⟨nameStr, hl, he⟩
    simp [manifestNameValidate, hl, he]
